import Mathlib

/-!
Shallow embedding of the holochain-rust core state engine, translated from
`src/core/src/chain/mod.rs`, `src/core/src/agent/state.rs` and
`src/core/src/nucleus/ribosome/api/call.rs`.  Data types whose defining
modules are not part of the provided sources (Entry, Header, Pair, the
content-addressed hash, HolochainError, ZomeFnCall, NucleusState lookups)
are modelled from the specification, as marked on each definition.
-/

namespace Holochain

/-- An Entry as in the spec data model: immutable content plus entry type. -/
structure Entry where
  content : String
  entry_type : String
deriving DecidableEq, Repr

/-- Modelled from the spec: content-addressed hashes.  The store is keyed by a
deterministic hash of the serialized value (`hash_table/entry.rs` and
`chain/header.rs` are not among the sources).  Content addressing is modelled
as a collision-free code: one constructor per addressable kind, so hash
equality coincides with value equality exactly as an ideal cryptographic hash
behaves.  `emptyHash` models the empty-string key used in lookups such as
`chain.entry("")`. -/
inductive Hash where
  | emptyHash : Hash
  | entryAddr (e : Entry) : Hash
  | headerAddr (entry_type timestamp : String) (hasLink : Bool) (linkVal : Hash)
      (entry_hash : Hash) (entry_signature : String)
      (hasLinkSameType : Bool) (linkSameTypeVal : Hash) : Hash
deriving DecidableEq, Repr

/-- Injective flattening of an optional hash into the `Hash` code (presence
flag plus payload, `emptyHash` standing in for an absent payload). -/
def optFlag : Option Hash → Bool
  | none => false
  | some _ => true

/-- Payload of an optional hash (see `optFlag`). -/
def optVal : Option Hash → Hash
  | none => .emptyHash
  | some h => h

theorem optFlagVal_inj {a b : Option Hash}
    (hf : optFlag a = optFlag b) (hv : optVal a = optVal b) : a = b := by
  cases a <;> cases b <;> simp_all [optFlag, optVal]

/-- A Header as in `chain/header.rs` (modelled from the spec: entry type,
timestamp, link to the previous pair's header hash, the entry hash, the
signature, and the link to the previous header of the same entry type). -/
structure Header where
  entry_type : String
  timestamp : String
  link : Option Hash
  entry_hash : Hash
  entry_signature : String
  link_same_type : Option Hash
deriving DecidableEq, Repr

/-- Modelled from the spec: an Entry is content-addressed by the hash of its
serialized form. -/
def Entry.hashOf (e : Entry) : Hash := Hash.entryAddr e

/-- Key of an entry in the table (`Key` impl for Entry): its content hash. -/
def Entry.key (e : Entry) : Hash := e.hashOf

/-- Modelled from the spec: a Header is content-addressed by the hash of its
serialized form; this is also the key of the header-entry stored in the table
(`header.to_entry().key()`). -/
def Header.hashOf (h : Header) : Hash :=
  Hash.headerAddr h.entry_type h.timestamp (optFlag h.link) (optVal h.link)
    h.entry_hash h.entry_signature (optFlag h.link_same_type) (optVal h.link_same_type)

theorem headerHashOf_inj {h g : Header} (e : h.hashOf = g.hashOf) : h = g := by
  cases h; cases g
  simp only [Header.hashOf, Hash.headerAddr.injEq] at e
  obtain ⟨e1, e2, e3, e4, e5, e6, e7, e8⟩ := e
  have l1 := optFlagVal_inj e3 e4
  have l2 := optFlagVal_inj e7 e8
  simp_all

theorem entryHashOf_inj {a b : Entry} (e : a.hashOf = b.hashOf) : a = b := by
  cases a; cases b
  simp only [Entry.hashOf, Hash.entryAddr.injEq] at e
  exact e

/-- A Pair binds a Header to the Entry it describes (`chain/pair.rs`, modelled
from the spec: identity is the hash of the header). -/
structure Pair where
  header : Header
  entry : Entry
deriving DecidableEq, Repr

/-- Pair identity: the hash of its Header (`Pair::key`). -/
def Pair.key (p : Pair) : Hash := p.header.hashOf

/-- Modelled from the spec: a Pair is valid iff its header's `entry_hash`
equals the hash of its entry. -/
def Pair.validate (p : Pair) : Bool := p.header.entry_hash == p.entry.hashOf

/-- Modelled from the spec: rendering of a hash as the base58 string that the
Rust code carries around (used only for display/JSON, never for lookups).
The encoding is abridged: each constructor renders with a distinct prefix. -/
def Hash.render : Hash → String
  | .emptyHash => ""
  | .entryAddr e => "QmE:" ++ e.entry_type ++ ":" ++ e.content
  | .headerAddr et ts _ _ _ sig _ _ => "QmH:" ++ et ++ ":" ++ ts ++ ":" ++ sig

/-- Modelled from the spec (`error.rs` is not among the sources):
a HolochainError either carries a plain description (`HolochainError::new`)
or is one of the typed variants used by the call reducer. -/
inductive HolochainError where
  | mk (description : String)
  | doesNotHaveCapabilityToken
  | zomeNotFound (descr : String)
  | capabilityNotFound (descr : String)
deriving DecidableEq, Repr

/-- Debug-style formatting of an optional hash, as interpolated by the
link-mismatch error message (`format!` with `{:?}`). -/
def fmtOptHash : Option Hash → String
  | none => "None"
  | some h => "Some(\"" ++ h.render ++ "\")"

/-- The error message of `commit_pair` step 1 (invalid pair). -/
def invalidPairMsg : String := "attempted to push an invalid pair for this chain"

/-- The error message of `commit_pair` step 2 (stale base / fork detection). -/
def linkMismatchMsg (top_pair prev_pair : Option Hash) : String :=
  "top pair did not match previous hash pair from commited pair: "
    ++ fmtOptHash top_pair ++ " vs. " ++ fmtOptHash prev_pair

/-- Classifier for the link-mismatch error produced by `commit_pair`. -/
def HolochainError.isLinkMismatch : HolochainError → Bool
  | .mk s => s.startsWith "top pair did not match previous hash pair"
  | _ => false

/-- The chain state: the chain actor's top-pair pointer plus the two kinds of
content stored in the table actor by `commit_pair` (header-entries and
entries), each keyed by content hash.  Maps are association lists where an
insert conses on the front and lookups take the first (newest) binding,
mirroring HashTable `put`/`entry`. -/
structure Chain where
  top : Option Pair
  headers : List (Hash × Header)
  entries : List (Hash × Entry)
deriving DecidableEq, Repr

/-- A fresh chain over a fresh table (`Chain::new`). -/
def Chain.new : Chain := ⟨none, [], []⟩

/-- Table lookup for a stored header-entry by its key. -/
def lookupH (t : List (Hash × Header)) (k : Hash) : Option Header :=
  (t.find? (fun kv => kv.1 == k)).map (fun kv => kv.2)

/-- Table lookup for a stored entry by its key. -/
def lookupE (t : List (Hash × Entry)) (k : Hash) : Option Entry :=
  (t.find? (fun kv => kv.1 == k)).map (fun kv => kv.2)

/-- One step of `ChainIterator::next`: from the current pair, follow
`header.link`, fetch the linked header-entry from the table, and rebuild the
Pair via `Pair::from_header` (which fetches the entry by `entry_hash`).
Returns `none` both at the natural end of the chain (`link == None`) and at a
dangling link; `wfFrom` below distinguishes the two (a dangling link panics in
the Rust code). -/
def chainNext (c : Chain) (p : Pair) : Option Pair :=
  match p.header.link with
  | none => none
  | some h =>
    match lookupH c.headers h with
    | none => none
    | some hd =>
      match lookupE c.entries hd.entry_hash with
      | none => none
      | some e => some ⟨hd, e⟩

/-- The sequence of Pairs yielded by `ChainIterator`, top to genesis, with
explicit fuel (the Rust iterator is lazy and in a well-formed chain always
terminates; fuel exhaustion and dangling links cut the list short and are
flagged by `wfFrom`). -/
def traceFrom (c : Chain) : Nat → Option Pair → List Pair
  | 0, _ => []
  | _ + 1, none => []
  | fuel + 1, some p => p :: traceFrom c fuel (chainNext c p)

/-- True when the iteration from `cur` terminates cleanly within `fuel` steps:
every followed link resolves in the table and iteration ends at a pair whose
`link` is `None` (or an empty chain).  A `false` marks a run where the Rust
iterator would have panicked (missing linked header: a fatal
internal-consistency error per the spec) or looped. -/
def wfFrom (c : Chain) : Nat → Option Pair → Bool
  | 0, none => true
  | 0, some _ => false
  | _ + 1, none => true
  | fuel + 1, some p =>
    match p.header.link with
    | none => true
    | some h =>
      match lookupH c.headers h with
      | none => false
      | some hd =>
        match lookupE c.entries hd.entry_hash with
        | none => false
        | some e => wfFrom c fuel (some ⟨hd, e⟩)

/-- Fuel sufficient for any well-formed chain: one more than the number of
stored header-entries (each traversal step consumes a distinct stored
header). -/
def Chain.fuel (c : Chain) : Nat := c.headers.length + 1

/-- `Chain::iter` collected into a list (top to genesis). -/
def Chain.pairs (c : Chain) : List Pair := traceFrom c c.fuel c.top

/-- The chain's iteration is well defined (the store and the chain agree). -/
def Chain.wf (c : Chain) : Bool := wfFrom c c.fuel c.top

/-- `Chain::validate`: every pair yielded by the iterator validates. -/
def Chain.validate (c : Chain) : Bool := c.pairs.all Pair.validate

/-- `impl PartialEq for Chain`: an invalid chain is like NaN, not even equal
to itself; header hashing ensures that if the tops match the whole chain
matches. -/
def chainEq (c other : Chain) : Bool :=
  c.validate && other.validate && c.top == other.top

/-- `SourceChain::top_pair` for the model. -/
def Chain.top_pair (c : Chain) : Option Pair := c.top

/-- `SourceChain::top_pair_of_type`: linear scan from the top for the first
pair whose header entry type matches. -/
def Chain.top_pair_of_type (c : Chain) (t : String) : Option Pair :=
  c.pairs.find? (fun p => p.header.entry_type == t)

/-- `SourceChain::pair`: browse the chain until the Pair with this key is
found. -/
def Chain.pair (c : Chain) (pair_hash : Hash) : Option Pair :=
  c.pairs.find? (fun p => p.key == pair_hash)

/-- The `find` inside `SourceChain::entry`: first (most recent) pair whose
entry hash equals the argument. -/
def Chain.findPairByEntryHash (c : Chain) (entry_hash : Hash) : Option Pair :=
  c.pairs.find? (fun p => p.entry.hashOf == entry_hash)

/-- `SourceChain::entry`: browse the chain until a Pair with this entry hash
is found and return its entry. -/
def Chain.entry (c : Chain) (entry_hash : Hash) : Option Entry :=
  (c.findPairByEntryHash entry_hash).map (fun p => p.entry)

/-- `SourceChain::commit_pair`, written state-passing: the Rust method
mutates `&mut self` and returns `Result<Pair, HolochainError>`; here it
returns the (possibly unchanged) chain next to that result.
Step 1 rejects an invalid pair; step 2 rejects a stale base (link mismatch);
steps 3 and 4 persist the header-entry and entry and advance the top. -/
def Chain.commit_pair (c : Chain) (p : Pair) : Chain × Except HolochainError Pair :=
  if !p.validate then
    (c, .error (.mk invalidPairMsg))
  else
    let top_pair := c.top.map Pair.key
    let prev_pair := p.header.link
    if top_pair != prev_pair then
      (c, .error (.mk (linkMismatchMsg top_pair prev_pair)))
    else
      ({ top := some p,
         headers := (p.header.hashOf, p.header) :: c.headers,
         entries := (p.entry.key, p.entry) :: c.entries }, .ok p)

/-- `Chain::create_next_header`: next commitable header for an entry
(timestamps and signatures are unimplemented in the source and empty). -/
def Chain.create_next_header (c : Chain) (e : Entry) : Header :=
  { entry_type := e.entry_type
    timestamp := ""
    link := c.top_pair.map (fun p => p.header.hashOf)
    entry_hash := e.hashOf
    entry_signature := ""
    link_same_type := (c.top_pair_of_type e.entry_type).map (fun p => p.header.hashOf) }

/-- `Chain::create_next_pair`: generate the header and bind it to the entry.
(The source asserts the new pair validates; this holds by construction, see
`create_next_pair_validates`.) -/
def Chain.create_next_pair (c : Chain) (e : Entry) : Pair :=
  ⟨c.create_next_header e, e⟩

/-- `SourceChain::commit_entry`: build the next pair and commit it. -/
def Chain.commit_entry (c : Chain) (e : Entry) : Chain × Except HolochainError Pair :=
  c.commit_pair (c.create_next_pair e)

/-- `ToJson for Chain`: the canonical JSON is the iterator's pair sequence,
top to genesis.  The serde string representation is external to the sources,
so the JSON boundary is modelled as the pair sequence itself. -/
def Chain.toJsonSeq (c : Chain) : List Pair := c.pairs

/-- `Chain::from_json`: reverse the decoded sequence and replay `commit_pair`
genesis-to-top over a fresh chain; any commit failure panics
(`expect("pair should be valid")`), modelled as `none`. -/
def Chain.fromJsonSeq (s : List Pair) : Option Chain :=
  s.reverse.foldlM
    (fun c p =>
      match c.commit_pair p with
      | (c', .ok _) => some c'
      | (_, .error _) => none)
    Chain.new

/-! ## Nucleus call bridge (`nucleus/ribosome/api/call.rs`) -/

/-- A ZomeFnCall identifies a requested function invocation by its four
fields (modelled from the spec; `nucleus/mod.rs` is not among the sources). -/
structure ZomeFnCall where
  zome_name : String
  cap_name : String
  fn_name : String
  fn_args : String
deriving DecidableEq, Repr

/-- Modelled from the spec: two calls are "the same call" iff all four
fields match (`ZomeFnCall::same_as`). -/
def ZomeFnCall.same_as (a b : ZomeFnCall) : Bool :=
  a.zome_name == b.zome_name && a.cap_name == b.cap_name
    && a.fn_name == b.fn_name && a.fn_args == b.fn_args

/-- The membrane tiers of a capability (`holochain_dna`). -/
inductive Membrane where
  | publicM
  | zomeM
  | agentM
  | apiKeyM
deriving DecidableEq, Repr

/-- The capability type carried by a capability (its membrane policy). -/
structure CapabilityType where
  membrane : Membrane
deriving DecidableEq, Repr

/-- A capability: membrane policy plus the code the executor runs. -/
structure Capability where
  cap_type : CapabilityType
  code : String
deriving DecidableEq, Repr

/-- A zome definition: named capabilities. -/
structure Zome where
  capabilities : List (String × Capability)
deriving DecidableEq, Repr

/-- A loaded DNA/manifest: a name and named zomes. -/
structure Dna where
  name : String
  zomes : List (String × Zome)
deriving DecidableEq, Repr

/-- The nucleus state slice: the loaded DNA and the per-call rendezvous map
(`None` = pending, `Some` = finished), as an association list where an insert
conses the newest binding on the front. -/
structure NucleusState where
  dna : Option Dna
  zome_calls : List (ZomeFnCall × Option (Except HolochainError String))
deriving Repr

/-- Lookup in the zome-call map (first, i.e. newest, binding wins). -/
def NucleusState.zome_call_result (s : NucleusState) (z : ZomeFnCall) :
    Option (Option (Except HolochainError String)) :=
  (s.zome_calls.find? (fun kv => kv.1 == z)).map (fun kv => kv.2)

/-- Insert into the zome-call map. -/
def NucleusState.insertCall (s : NucleusState) (z : ZomeFnCall)
    (r : Option (Except HolochainError String)) : NucleusState :=
  { s with zome_calls := (z, r) :: s.zome_calls }

/-- Modelled from the spec and the source's tests
(`nucleus/state.rs` is not among the sources): `get_capability` looks the
named zome up in the DNA, then the named capability within it; an absent
zome yields a zome-not-found error, an absent capability a
capability-not-found error. -/
def NucleusState.get_capability (s : NucleusState) (call : ZomeFnCall) :
    Except HolochainError Capability :=
  match s.dna with
  | none => .error (.mk "DNA not initialized")
  | some dna =>
    match (dna.zomes.find? (fun kv => kv.1 == call.zome_name)).map (fun kv => kv.2) with
    | none => .error (.zomeNotFound ("Zome '" ++ call.zome_name ++ "' not found"))
    | some zome =>
      match (zome.capabilities.find? (fun kv => kv.1 == call.cap_name)).map (fun kv => kv.2) with
      | none =>
        .error (.capabilityNotFound ("Capability '" ++ call.cap_name ++ "' not found"))
      | some cap => .ok cap

/-- Record of a hand-off to the external executor
(`launch_zome_fn_call(context, fn_call, ..., &cap.code, dna.name)`): the call
and the capability code it runs.  `none` means the executor was never
invoked. -/
def LaunchRecord := Option (ZomeFnCall × String)

/-- `reduce_call`: checks the capability and its membrane; on any failure it
resolves the call immediately with the error and does not launch the
executor; only a `Public` membrane authorizes, in which case the call is
marked pending (`None`) and handed to the executor. -/
def reduce_call (s : NucleusState) (fn_call : ZomeFnCall) :
    NucleusState × LaunchRecord :=
  match s.get_capability fn_call with
  | .error e => (s.insertCall fn_call (some (.error e)), none)
  | .ok cap =>
    let can_call :=
      match cap.cap_type.membrane with
      | .publicM => true
      | .zomeM => false
      | .agentM => false
      | .apiKeyM => false
    if !can_call then
      (s.insertCall fn_call (some (.error .doesNotHaveCapabilityToken)), none)
    else
      (s.insertCall fn_call none, some (fn_call, cap.code))

/-- The nucleus-relevant actions: `Call` (reduced by `reduce_call`) and the
result fold-back.  The fold-back reducer lives outside the provided sources;
modelled from the spec: on executor completion a second action folds the
`Ok(json)` or `Err(..)` result into the call map as `Some(..)`. -/
inductive NucleusAction where
  | call (z : ZomeFnCall)
  | returnZomeFunctionResult (z : ZomeFnCall) (r : Except HolochainError String)
  | otherAction
deriving Repr

/-- One reduction step of the nucleus slice over the actions above. -/
def nucleusReduce (s : NucleusState) (a : NucleusAction) : NucleusState :=
  match a with
  | .call z => (reduce_call s z).1
  | .returnZomeFunctionResult z r => s.insertCall z (some r)
  | .otherAction => s

/-- Decoded call-request payload (`ZomeCallArgs`). -/
structure ZomeCallArgs where
  zome_name : String
  cap_name : String
  fn_name : String
  fn_args : String
deriving DecidableEq, Repr

/-- `ZomeFnCall::from_args`. -/
def ZomeFnCall.from_args (a : ZomeCallArgs) : ZomeFnCall :=
  ⟨a.zome_name, a.cap_name, a.fn_name, a.fn_args⟩

/-- Return codes surfaced to the execution sandbox (`HcApiReturnCode`). -/
inductive HcApiReturnCode where
  | success
  | errorJson
  | errorRecursiveCall
  | errorActionResult
deriving DecidableEq, Repr

/-- Outcome of the synchronous part of `invoke_call`: either an immediate
return code (produced before any action is dispatched or observer
registered) or the dispatch of a `Call` action together with the
registration of the blocking observer for that call. -/
inductive InvokeCallOutcome where
  | immediate (code : HcApiReturnCode)
  | dispatched (call : ZomeFnCall)
deriving DecidableEq, Repr

/-- The runtime context of the currently executing call. -/
structure Runtime where
  zome_call : ZomeFnCall
deriving DecidableEq, Repr

/-- `invoke_call` up to the dispatch point: JSON decoding of the argument
string is external (serde), so the input is the decode result; a decode
failure returns the JSON error code, a call identical to the currently
executing one returns the recursive-call error code, and otherwise the
`Call` action is dispatched with its observer. -/
def invoke_call (runtime : Runtime) (input : Except Unit ZomeCallArgs) :
    InvokeCallOutcome :=
  match input with
  | .error _ => .immediate .errorJson
  | .ok args =>
    let zome_call := ZomeFnCall.from_args args
    if zome_call.same_as runtime.zome_call then
      .immediate .errorRecursiveCall
    else
      .dispatched zome_call

/-! ## Agent state slice (`agent/state.rs`) -/

instance exceptDecEqInst {ε α : Type} [DecidableEq ε] [DecidableEq α] :
    DecidableEq (Except ε α) := fun a b =>
  match a, b with
  | .ok x, .ok y =>
    if h : x = y then .isTrue (congrArg Except.ok h)
    else .isFalse (fun c => h (Except.ok.inj c))
  | .error x, .error y =>
    if h : x = y then .isTrue (congrArg Except.error h)
    else .isFalse (fun c => h (Except.error.inj c))
  | .ok _, .error _ => .isFalse (fun c => Except.noConfusion c)
  | .error _, .ok _ => .isFalse (fun c => Except.noConfusion c)

/-- The agent's response to an action (`ActionResponse`). -/
inductive ActionResponse where
  | commit (result : Except HolochainError Pair)
  | getEntry (result : Option Pair)
deriving DecidableEq, Repr

/-- Modelled from the spec (`error.rs` is not among the sources):
`HolochainError::to_json` renders the error object with the error's
description as the message. -/
def HolochainError.description : HolochainError → String
  | .mk d => d
  | .doesNotHaveCapabilityToken => "Caller does not have Capability to make that call"
  | .zomeNotFound d => d
  | .capabilityNotFound d => d

/-- `ToJson for HolochainError`: the error object. -/
def HolochainError.to_json (e : HolochainError) : String :=
  "\x7b\"error\":\"" ++ e.description ++ "\"\x7d"

/-- JSON of an optional hash field of a header (`null` when absent). -/
def optHashJson : Option Hash → String
  | none => "null"
  | some h => "\"" ++ h.render ++ "\""

/-- `ToJson for Header` (modelled from the spec's canonical pair JSON). -/
def Header.to_json (h : Header) : String :=
  "\x7b\"entry_type\":\"" ++ h.entry_type ++ "\",\"timestamp\":\"" ++ h.timestamp
    ++ "\",\"link\":" ++ optHashJson h.link
    ++ ",\"entry_hash\":\"" ++ h.entry_hash.render
    ++ "\",\"entry_signature\":\"" ++ h.entry_signature
    ++ "\",\"link_same_type\":" ++ optHashJson h.link_same_type ++ "\x7d"

/-- `ToJson for Entry` (modelled from the spec's canonical pair JSON). -/
def Entry.to_json (e : Entry) : String :=
  "\x7b\"content\":\"" ++ e.content ++ "\",\"entry_type\":\"" ++ e.entry_type ++ "\"\x7d"

/-- `ToJson for Pair` (modelled from the spec's canonical pair JSON). -/
def Pair.to_json (p : Pair) : String :=
  "\x7b\"header\":" ++ p.header.to_json ++ ",\"entry\":" ++ p.entry.to_json ++ "\x7d"

/-- `ToJson for ActionResponse`: a successful commit renders the hash object
from `pair.entry().key()`; a failed commit renders the error object; a get
renders the full pair JSON or the empty string. -/
def ActionResponse.to_json : ActionResponse → String
  | .commit (.ok pair) => "\x7b\"hash\":\"" ++ pair.entry.key.render ++ "\"\x7d"
  | .commit (.error err) => err.to_json
  | .getEntry (some pair) => pair.to_json
  | .getEntry none => ""

/-- An agent action as dispatched through the instance (`Action`).  Only
`Commit` and `GetEntry` are handled by the agent slice. -/
inductive Action where
  | commitA (e : Entry)
  | getEntryA (key : Hash)
  | callA (z : ZomeFnCall)
  | returnZomeFunctionResultA (z : ZomeFnCall) (r : Except HolochainError String)
deriving DecidableEq, Repr

/-- An Action plus its uniqueness token (modelled from the spec:
`action.rs` is not among the sources). -/
structure ActionWrapper where
  action : Action
  id : Nat
deriving DecidableEq, Repr

/-- The agent state slice: key material, the per-action response history and
the agent's chain (the actions map is an association list where an insert
conses the newest binding on the front). -/
structure AgentState where
  keys : Option String
  actions : List (ActionWrapper × ActionResponse)
  chain : Chain
deriving DecidableEq, Repr

/-- `AgentState::new`. -/
def AgentState.new (chain : Chain) : AgentState := ⟨none, [], chain⟩

/-- Lookup in the actions map (newest binding wins, as in HashMap insert). -/
def AgentState.actionResult (s : AgentState) (aw : ActionWrapper) : Option ActionResponse :=
  (s.actions.find? (fun kv => kv.1 == aw)).map (fun kv => kv.2)

/-- `reduce_commit`: commits the entry on the agent's chain and stores the
commit result (success or error) keyed by the action wrapper.  The
non-commit branch is unreachable through `resolve_reducer` (the source
`unwrap_to!` would panic) and leaves the state unchanged. -/
def reduce_commit (s : AgentState) (aw : ActionWrapper) : AgentState :=
  match aw.action with
  | .commitA e =>
    let r := s.chain.commit_entry e
    { s with chain := r.1, actions := (aw, .commit r.2) :: s.actions }
  | _ => s

/-- `reduce_get`: looks the entry up in the agent's chain and stores the
result (found pair or `None`) keyed by the action wrapper.  The non-get
branch is unreachable through `resolve_reducer`. -/
def reduce_get (s : AgentState) (aw : ActionWrapper) : AgentState :=
  match aw.action with
  | .getEntryA key =>
    { s with actions := (aw, .getEntry (s.chain.findPairByEntryHash key)) :: s.actions }
  | _ => s

/-- An agent reducer (`AgentReduceFn`), with the context and egress channels
elided: the two agent reducers bind them with `_` and never use them. -/
def AgentReduceFn := AgentState → ActionWrapper → AgentState

/-- `resolve_reducer`: maps an action to at most one agent reducer. -/
def resolve_reducer (aw : ActionWrapper) : Option AgentReduceFn :=
  match aw.action with
  | .commitA _ => some reduce_commit
  | .getEntryA _ => some reduce_get
  | _ => none

/-- The agent slice `reduce`: if a reducer matches, apply it to a fresh copy
of the old state and return the copy; otherwise return the old shared
snapshot itself. -/
def agentReduce (old_state : AgentState) (aw : ActionWrapper) : AgentState :=
  match resolve_reducer aw with
  | some f => f old_state aw
  | none => old_state

/-! ## Chain history: chains reachable by successful commits -/

/-- A chain paired with the genesis-to-top list of pairs committed onto it. -/
inductive ChainHistory : Chain → List Pair → Prop where
  | nil : ChainHistory Chain.new []
  | snoc {c : Chain} {ps : List Pair} {p : Pair} {c' : Chain} :
      ChainHistory c ps → c.commit_pair p = (c', .ok p) → ChainHistory c' (ps ++ [p])

/-- The header table is well formed: every binding's key is its header's
content hash. -/
def headersWF (t : List (Hash × Header)) : Prop := ∀ kv ∈ t, kv.1 = kv.2.hashOf

/-- The entry table is well formed: every binding's key is its entry's
content hash. -/
def entriesWF (t : List (Hash × Entry)) : Prop := ∀ kv ∈ t, kv.1 = kv.2.key

theorem lookupH_key {t : List (Hash × Header)} {k : Hash} {hd : Header}
    (w : headersWF t) (h : lookupH t k = some hd) : k = hd.hashOf := by
  unfold lookupH at h
  cases hfind : t.find? (fun kv => kv.1 == k) with
  | none => rw [hfind] at h; simp at h
  | some kv =>
    rw [hfind] at h
    simp only [Option.map_some'] at h
    have hmem := List.mem_of_find?_eq_some hfind
    have hp := List.find?_some hfind
    simp only [beq_iff_eq] at hp
    have hw := w kv hmem
    have h2 : kv.2 = hd := by injection h
    rw [← hp, hw, h2]

theorem lookupE_key {t : List (Hash × Entry)} {k : Hash} {e : Entry}
    (w : entriesWF t) (h : lookupE t k = some e) : k = e.key := by
  unfold lookupE at h
  cases hfind : t.find? (fun kv => kv.1 == k) with
  | none => rw [hfind] at h; simp at h
  | some kv =>
    rw [hfind] at h
    simp only [Option.map_some'] at h
    have hmem := List.mem_of_find?_eq_some hfind
    have hp := List.find?_some hfind
    simp only [beq_iff_eq] at hp
    have hw := w kv hmem
    have h2 : kv.2 = e := by injection h
    rw [← hp, hw, h2]

theorem lookupH_cons {k : Hash} {v : Header} {t : List (Hash × Header)} {q : Hash} :
    lookupH ((k, v) :: t) q = if k = q then some v else lookupH t q := by
  by_cases h : k = q
  · simp [lookupH, List.find?_cons_of_pos, h]
  · have : ((fun kv => kv.1 == q) ((k, v) : Hash × Header)) = false := by
      simp [h]
    simp [lookupH, List.find?_cons_of_neg, this, h]

theorem lookupE_cons {k : Hash} {v : Entry} {t : List (Hash × Entry)} {q : Hash} :
    lookupE ((k, v) :: t) q = if k = q then some v else lookupE t q := by
  by_cases h : k = q
  · simp [lookupE, List.find?_cons_of_pos, h]
  · have : ((fun kv => kv.1 == q) ((k, v) : Hash × Entry)) = false := by
      simp [h]
    simp [lookupE, List.find?_cons_of_neg, this, h]

/-- The chain state after a successful commit of `p` (steps 3 and 4 of
`commit_pair`). -/
def Chain.extend (c : Chain) (p : Pair) : Chain :=
  { top := some p
    headers := (p.header.hashOf, p.header) :: c.headers
    entries := (p.entry.key, p.entry) :: c.entries }

theorem commit_pair_ok_iff {c : Chain} {p : Pair} :
    c.commit_pair p = (c.extend p, .ok p) ↔
      (p.validate = true ∧ c.top.map Pair.key = p.header.link) := by
  constructor
  · intro h
    unfold Chain.commit_pair at h
    by_cases hv : p.validate
    · by_cases hl : c.top.map Pair.key = p.header.link
      · exact ⟨hv, hl⟩
      · exfalso
        have hne : (c.top.map Pair.key != p.header.link) = true := by
          simp [bne_iff_ne, hl]
        simp [hv, hne] at h
    · exfalso
      simp [hv] at h
  · rintro ⟨hv, hl⟩
    have hne : (c.top.map Pair.key != p.header.link) = false := by
      simp [bne_iff_ne, hl]
    simp [Chain.commit_pair, hv, hne, Chain.extend]

/-- A successful commit is exactly an `extend`. -/
theorem commit_pair_ok_shape {c : Chain} {p : Pair} {c' : Chain} {q : Pair}
    (h : c.commit_pair p = (c', .ok q)) :
    c' = c.extend p ∧ q = p ∧ p.validate = true ∧ c.top.map Pair.key = p.header.link := by
  unfold Chain.commit_pair at h
  by_cases hv : p.validate
  · by_cases hl : c.top.map Pair.key = p.header.link
    · have hne : (c.top.map Pair.key != p.header.link) = false := by
        simp [bne_iff_ne, hl]
      simp only [hv, Bool.not_true, Bool.false_eq_true, if_false, hne, if_false] at h
      rw [Prod.mk.injEq] at h
      refine ⟨h.1.symm, ?_, hv, hl⟩
      have := h.2
      cases this
      rfl
    · have hne : (c.top.map Pair.key != p.header.link) = true := by
        simp [bne_iff_ne, hl]
      simp [hv, hne] at h
  · simp [hv] at h

theorem traceFrom_none (c : Chain) (fuel : Nat) : traceFrom c fuel none = [] := by
  cases fuel <;> rfl

theorem wfFrom_none (c : Chain) (fuel : Nat) : wfFrom c fuel none = true := by
  cases fuel <;> rfl

theorem lookupH_extend {t : List (Hash × Header)} {g : Header} {k : Hash} {hd : Header}
    (w : headersWF t) (h : lookupH t k = some hd) :
    lookupH ((g.hashOf, g) :: t) k = some hd := by
  rw [lookupH_cons]
  by_cases he : g.hashOf = k
  · have hk := lookupH_key w h
    have hg : g = hd := headerHashOf_inj (by rw [he, hk])
    subst hg
    simp [he]
  · simp [he, h]

theorem lookupE_extend {t : List (Hash × Entry)} {g : Entry} {k : Hash} {e : Entry}
    (w : entriesWF t) (h : lookupE t k = some e) :
    lookupE ((g.key, g) :: t) k = some e := by
  rw [lookupE_cons]
  by_cases he : g.key = k
  · have hk := lookupE_key w h
    have hg : g = e := entryHashOf_inj (by rw [show g.hashOf = g.key from rfl, he, hk]; rfl)
    subst hg
    simp [he]
  · simp [he, h]

/-- Extending the tables with a fresh committed pair changes neither the
well-formedness of an existing traversal nor the pairs it yields. -/
theorem trace_wf_extend {c : Chain} (p : Pair)
    (wh : headersWF c.headers) (we : entriesWF c.entries) :
    ∀ fuel cur, wfFrom c fuel cur = true →
      wfFrom (c.extend p) fuel cur = true ∧
        traceFrom (c.extend p) fuel cur = traceFrom c fuel cur := by
  intro fuel
  induction fuel with
  | zero =>
    intro cur h
    cases cur with
    | none => simp [wfFrom, traceFrom]
    | some q => simp [wfFrom] at h
  | succ n ih =>
    intro cur h
    cases cur with
    | none => simp [wfFrom, traceFrom]
    | some q =>
      cases hl : q.header.link with
      | none =>
        constructor
        · simp [wfFrom, hl]
        · simp [traceFrom, chainNext, hl, traceFrom_none]
      | some hsh =>
        cases hH : lookupH c.headers hsh with
        | none => simp [wfFrom, hl, hH] at h
        | some hd =>
          cases hE : lookupE c.entries hd.entry_hash with
          | none => simp [wfFrom, hl, hH, hE] at h
          | some e =>
            simp only [wfFrom, hl, hH, hE] at h
            have hH' : lookupH (c.extend p).headers hsh = some hd := by
              simpa [Chain.extend] using lookupH_extend (g := p.header) wh hH
            have hE' : lookupE (c.extend p).entries hd.entry_hash = some e := by
              simpa [Chain.extend] using lookupE_extend (g := p.entry) we hE
            have hrec := ih (some ⟨hd, e⟩) h
            constructor
            · simp only [wfFrom, hl, hH', hE']
              exact hrec.1
            · simp only [traceFrom, chainNext, hl, hH, hE, hH', hE']
              rw [hrec.2]

/-- Fuel weakening: a traversal that is well formed at some fuel is well
formed, with the same pairs, at any larger fuel. -/
theorem trace_wf_mono {c : Chain} :
    ∀ fuel fuel' cur, fuel ≤ fuel' → wfFrom c fuel cur = true →
      wfFrom c fuel' cur = true ∧ traceFrom c fuel' cur = traceFrom c fuel cur := by
  intro fuel
  induction fuel with
  | zero =>
    intro fuel' cur _ h
    cases cur with
    | none => simp [wfFrom_none, traceFrom_none]
    | some q => simp [wfFrom] at h
  | succ n ih =>
    intro fuel' cur hle h
    cases cur with
    | none => simp [wfFrom_none, traceFrom_none]
    | some q =>
      obtain ⟨m, rfl⟩ : ∃ m, fuel' = m + 1 := by
        cases fuel' with
        | zero => omega
        | succ m => exact ⟨m, rfl⟩
      have hmn : n ≤ m := by omega
      cases hl : q.header.link with
      | none =>
        constructor
        · simp [wfFrom, hl]
        · simp [traceFrom, chainNext, hl, traceFrom_none]
      | some hsh =>
        cases hH : lookupH c.headers hsh with
        | none => simp [wfFrom, hl, hH] at h
        | some hd =>
          cases hE : lookupE c.entries hd.entry_hash with
          | none => simp [wfFrom, hl, hH, hE] at h
          | some e =>
            simp only [wfFrom, hl, hH, hE] at h
            have hrec := ih m (some ⟨hd, e⟩) hmn h
            constructor
            · simp only [wfFrom, hl, hH, hE]
              exact hrec.1
            · simp only [traceFrom, chainNext, hl, hH, hE]
              rw [hrec.2]

/-- The links of a genesis-to-top pair list line up: each pair validates and
links to the key of the pair before it (`t` is the pair preceding the list,
`none` at genesis). -/
def linksFrom : Option Pair → List Pair → Bool
  | _, [] => true
  | t, p :: rest =>
    p.validate && (p.header.link == t.map Pair.key) && linksFrom (some p) rest

/-- The pair on top after replaying `ps` over a chain whose top was `t`. -/
def lastTop (t : Option Pair) (ps : List Pair) : Option Pair :=
  ps.getLast?.or t

theorem lastTop_nil (t : Option Pair) : lastTop t [] = t := rfl

theorem linksFrom_append {t : Option Pair} {ps : List Pair} {p : Pair} :
    linksFrom t (ps ++ [p]) =
      (linksFrom t ps && (p.validate && (p.header.link == (lastTop t ps).map Pair.key))) := by
  induction ps generalizing t with
  | nil => simp [linksFrom, lastTop]
  | cons q rest ih =>
    have hlt : lastTop t (q :: rest) = lastTop (some q) rest := by
      cases rest with
      | nil => simp [lastTop]
      | cons r rs =>
        show ((q :: r :: rs).getLast?).or t = ((r :: rs).getLast?).or (some q)
        rw [List.getLast?_cons_cons]
        cases hlast : (r :: rs).getLast? with
        | none =>
          exfalso
          have := List.getLast?_eq_none_iff.mp hlast
          simp at this
        | some x => rfl
    simp only [List.cons_append, linksFrom, hlt, List.append_eq]
    rw [ih]
    simp [Bool.and_assoc]

theorem linksFrom_validate {t : Option Pair} {ps : List Pair} (h : linksFrom t ps = true) :
    ∀ p ∈ ps, p.validate = true := by
  induction ps generalizing t with
  | nil => intro p hp; simp at hp
  | cons q rest ih =>
    simp only [linksFrom, Bool.and_eq_true] at h
    intro p hp
    rcases List.mem_cons.mp hp with rfl | hmem
    · exact h.1.1
    · exact ih h.2 p hmem

/-- The full reachability invariant carried through a chain's history. -/
def ChainInv (c : Chain) (ps : List Pair) : Prop :=
  headersWF c.headers ∧ entriesWF c.entries ∧
    c.top = ps.getLast? ∧
    (match c.top with
     | none => True
     | some t =>
       lookupH c.headers t.header.hashOf = some t.header ∧
         lookupE c.entries t.header.entry_hash = some t.entry) ∧
    c.wf = true ∧ c.pairs = ps.reverse ∧
    linksFrom none ps = true

theorem chain_new_inv : ChainInv Chain.new [] := by
  refine ⟨?_, ?_, rfl, trivial, rfl, rfl, rfl⟩ <;> intro kv h <;> simp [Chain.new] at h

theorem chain_inv_step {c : Chain} {ps : List Pair} {p : Pair} {c' : Chain}
    (inv : ChainInv c ps) (h : c.commit_pair p = (c', .ok p)) :
    ChainInv c' (ps ++ [p]) := by
  obtain ⟨wh, we, htop, htt, hwf, hpairs, hlinks⟩ := inv
  obtain ⟨hc', _, hv, hl⟩ := commit_pair_ok_shape h
  subst hc'
  have hexth : (c.extend p).headers = (p.header.hashOf, p.header) :: c.headers := rfl
  have hexte : (c.extend p).entries = (p.entry.key, p.entry) :: c.entries := rfl
  have wh' : headersWF (c.extend p).headers := by
    intro kv hkv
    rw [hexth] at hkv
    rcases List.mem_cons.mp hkv with rfl | hmem
    · rfl
    · exact wh kv hmem
  have we' : entriesWF (c.extend p).entries := by
    intro kv hkv
    rw [hexte] at hkv
    rcases List.mem_cons.mp hkv with rfl | hmem
    · rfl
    · exact we kv hmem
  have hvkey : p.header.entry_hash = p.entry.key := by
    have := hv
    simp only [Pair.validate, beq_iff_eq] at this
    exact this
  have htt' : lookupH (c.extend p).headers p.header.hashOf = some p.header ∧
      lookupE (c.extend p).entries p.header.entry_hash = some p.entry := by
    constructor
    · rw [hexth, lookupH_cons]; simp
    · rw [hexte, lookupE_cons, hvkey]; simp
  -- in the extended tables the old top is still reconstructible
  have hrecon : ∀ t, c.top = some t →
      lookupH (c.extend p).headers t.header.hashOf = some t.header ∧
        lookupE (c.extend p).entries t.header.entry_hash = some t.entry := by
    intro t hct
    rw [hct] at htt
    constructor
    · rw [hexth]; exact lookupH_extend wh htt.1
    · rw [hexte]; exact lookupE_extend (g := p.entry) we htt.2
  -- the next pair reached from the new top is the old top, reconstructed
  have hnext : chainNext (c.extend p) p = c.top := by
    cases hct : c.top with
    | none =>
      have : p.header.link = none := by rw [← hl, hct]; rfl
      simp [chainNext, this]
    | some t =>
      have hlink : p.header.link = some t.key := by rw [← hl, hct]; rfl
      simp [chainNext, hlink, Pair.key, (hrecon t hct).1, (hrecon t hct).2]
  have hfuel : (c.extend p).fuel = c.fuel + 1 := by
    simp [Chain.fuel, hexth]
  have hwf_top : wfFrom c c.fuel c.top = true := hwf
  have hext := trace_wf_extend (c := c) p wh we c.fuel c.top hwf_top
  have hwf' : (c.extend p).wf = true := by
    unfold Chain.wf
    rw [hfuel]
    show wfFrom (c.extend p) (c.fuel + 1) (some p) = true
    cases hct : c.top with
    | none =>
      have hlink : p.header.link = none := by rw [← hl, hct]; rfl
      simp [wfFrom, hlink]
    | some t =>
      have hlink : p.header.link = some t.key := by rw [← hl, hct]; rfl
      have hH' : lookupH (c.extend p).headers t.key = some t.header := (hrecon t hct).1
      simp only [wfFrom, hlink, hH', (hrecon t hct).2]
      show wfFrom (c.extend p) c.fuel (some t) = true
      rw [← hct]
      exact hext.1
  have hpairs' : (c.extend p).pairs = (ps ++ [p]).reverse := by
    unfold Chain.pairs
    rw [hfuel]
    show traceFrom (c.extend p) (c.fuel + 1) (some p) = (ps ++ [p]).reverse
    have : traceFrom (c.extend p) (c.fuel + 1) (some p)
        = p :: traceFrom (c.extend p) c.fuel (chainNext (c.extend p) p) := rfl
    rw [this, hnext, hext.2]
    have hp2 : traceFrom c c.fuel c.top = ps.reverse := hpairs
    rw [hp2]
    simp
  have hlinks' : linksFrom none (ps ++ [p]) = true := by
    rw [linksFrom_append]
    have hlast : lastTop none ps = c.top := by
      rw [htop]; simp [lastTop]
    rw [hlinks, hlast, hv]
    simp [← hl]
  refine ⟨wh', we', ?_, ?_, hwf', hpairs', hlinks'⟩
  · show some p = (ps ++ [p]).getLast?
    simp
  · show (match (c.extend p).top with
      | none => True
      | some t => lookupH (c.extend p).headers t.header.hashOf = some t.header ∧
          lookupE (c.extend p).entries t.header.entry_hash = some t.entry)
    exact htt'

/-- Every chain with a history satisfies the invariant. -/
theorem chain_history_inv {c : Chain} {ps : List Pair} (h : ChainHistory c ps) :
    ChainInv c ps := by
  induction h with
  | nil => exact chain_new_inv
  | snoc _ hcommit ih => exact chain_inv_step ih hcommit

/-- A reachable chain validates. -/
theorem chain_history_validate {c : Chain} {ps : List Pair} (h : ChainHistory c ps) :
    c.validate = true := by
  obtain ⟨_, _, _, _, _, hpairs, hlinks⟩ := chain_history_inv h
  unfold Chain.validate
  rw [hpairs]
  rw [List.all_eq_true]
  intro p hp
  exact linksFrom_validate hlinks p (List.mem_reverse.mp hp)

/-- Replaying a well-linked pair list over a chain whose top matches the
list's base succeeds and extends the chain's history. -/
theorem replay_ok {ps : List Pair} :
    ∀ {t : Option Pair} {c : Chain} {qs : List Pair},
      linksFrom t ps = true → ChainHistory c qs → c.top = t →
      ∃ c', (ps.foldlM
          (fun c p =>
            match c.commit_pair p with
            | (c', .ok _) => some c'
            | (_, .error _) => none)
          c = some c') ∧ ChainHistory c' (qs ++ ps) := by
  induction ps with
  | nil =>
    intro t c qs _ hh _
    exact ⟨c, rfl, by simpa using hh⟩
  | cons p rest ih =>
    intro t c qs hlinks hh htop
    simp only [linksFrom, Bool.and_eq_true, beq_iff_eq] at hlinks
    obtain ⟨⟨hv, hl⟩, hrest⟩ := hlinks
    have hcommit : c.commit_pair p = (c.extend p, .ok p) :=
      commit_pair_ok_iff.mpr ⟨hv, by rw [htop, ← hl]⟩
    have hh' : ChainHistory (c.extend p) (qs ++ [p]) := ChainHistory.snoc hh hcommit
    have htop' : (c.extend p).top = some p := rfl
    obtain ⟨c', hfold, hhist⟩ := ih hrest hh' htop'
    refine ⟨c', ?_, by simpa using hhist⟩
    simp only [List.foldlM_cons, hcommit]
    exact hfold

/-! ## Small lookup lemmas for the state maps -/

theorem zome_call_result_insert_self (s : NucleusState) (z : ZomeFnCall)
    (v : Option (Except HolochainError String)) :
    (s.insertCall z v).zome_call_result z = some v := by
  have hp : ((fun kv => kv.1 == z) ((z, v) : ZomeFnCall × Option (Except HolochainError String)))
      = true := by simp
  simp [NucleusState.insertCall, NucleusState.zome_call_result, List.find?_cons_of_pos _ hp]

theorem zome_call_result_insert_ne (s : NucleusState) (z : ZomeFnCall)
    (v : Option (Except HolochainError String)) (k : ZomeFnCall) (h : z ≠ k) :
    (s.insertCall z v).zome_call_result k = s.zome_call_result k := by
  have hb : (((z, v) : ZomeFnCall × Option (Except HolochainError String)).1 == k) = false := by
    simp [h]
  simp [NucleusState.insertCall, NucleusState.zome_call_result, List.find?_cons, hb]

/-- `reduce_call` always records its verdict under the called key. -/
theorem reduce_call_state (s : NucleusState) (z : ZomeFnCall) :
    ∃ v, (reduce_call s z).1 = s.insertCall z v := by
  cases hc : s.get_capability z with
  | error e => exact ⟨some (.error e), by simp [reduce_call, hc]⟩
  | ok cap =>
    cases hm : cap.cap_type.membrane with
    | publicM => exact ⟨none, by simp [reduce_call, hc, hm]⟩
    | zomeM => exact ⟨some (.error .doesNotHaveCapabilityToken), by simp [reduce_call, hc, hm]⟩
    | agentM => exact ⟨some (.error .doesNotHaveCapabilityToken), by simp [reduce_call, hc, hm]⟩
    | apiKeyM => exact ⟨some (.error .doesNotHaveCapabilityToken), by simp [reduce_call, hc, hm]⟩

theorem actionResult_head (s : AgentState) (aw : ActionWrapper) (r : ActionResponse)
    (rest : List (ActionWrapper × ActionResponse)) (h : s.actions = (aw, r) :: rest) :
    s.actionResult aw = some r := by
  have hb : (((aw, r) : ActionWrapper × ActionResponse).1 == aw) = true := by simp
  simp [AgentState.actionResult, h, List.find?_cons, hb]

/-! ## Concrete fixtures (mirroring the source's unit-test data) -/

/-- `test_entry_a`. -/
def tE1 : Entry := ⟨"test entry content", "testEntryType"⟩

/-- `test_entry_b`. -/
def tE2 : Entry := ⟨"other test entry content", "testEntryTypeB"⟩

def tC0 : Chain := Chain.new
def tP1 : Pair := tC0.create_next_pair tE1
def tC1 : Chain := tC0.extend tP1
def tP2 : Pair := tC1.create_next_pair tE2
def tC2 : Chain := tC1.extend tP2
def tP3 : Pair := tC2.create_next_pair tE1
def tC3 : Chain := tC2.extend tP3

/-- The three-commit test chain (entries A, B, A) carries its history. -/
theorem tHist3 : ChainHistory tC3 [tP1, tP2, tP3] := by
  have h1 : tC0.commit_pair tP1 = (tC1, .ok tP1) := by decide
  have h2 : tC1.commit_pair tP2 = (tC2, .ok tP2) := by decide
  have h3 : tC2.commit_pair tP3 = (tC3, .ok tP3) := by decide
  exact ChainHistory.snoc (ChainHistory.snoc (ChainHistory.snoc ChainHistory.nil h1) h2) h3

/-- A pair failing validation: its header's `entry_hash` is not its entry's
hash. -/
def tBadPair : Pair :=
  ⟨{ entry_type := "testEntryType", timestamp := "", link := some Hash.emptyHash,
     entry_hash := Hash.emptyHash, entry_signature := "", link_same_type := none }, tE1⟩

/-- A valid pair whose link points nowhere useful (stale base). -/
def tStalePair : Pair :=
  ⟨{ entry_type := "testEntryType", timestamp := "", link := some Hash.emptyHash,
     entry_hash := tE1.hashOf, entry_signature := "", link_same_type := none }, tE1⟩

/-- A pair failing validation whose link is `None` (genesis position). -/
def tBadPairG : Pair :=
  ⟨{ entry_type := "testEntryType", timestamp := "", link := none,
     entry_hash := Hash.emptyHash, entry_signature := "", link_same_type := none }, tE1⟩

/-- A hand-built chain whose single pair fails validation. -/
def tBadChain : Chain := ⟨some tBadPairG, [], []⟩

def tCap : Capability := ⟨⟨.publicM⟩, "wasm"⟩
def tZome : Zome := ⟨[("test_cap", tCap)]⟩
def tDna : Dna := ⟨"test dna", [("test_zome", tZome)]⟩
def tNucleus : NucleusState := ⟨some tDna, []⟩
def tCall : ZomeFnCall := ⟨"test_zome", "test_cap", "test", "\x7b\x7d"⟩
def tNucleus1 : NucleusState := nucleusReduce tNucleus (.call tCall)
def tNucleus2 : NucleusState :=
  nucleusReduce tNucleus1 (.returnZomeFunctionResult tCall (.ok "result"))
def tNucleus3 : NucleusState := nucleusReduce tNucleus2 (.call tCall)

/-- A call naming a zome absent from the test DNA. -/
def tCallNoZome : ZomeFnCall := ⟨"bad_zome", "test_cap", "test", "\x7b\x7d"⟩

def tArgs : ZomeCallArgs := ⟨"test_zome", "test_cap", "test", "\x7b\x7d"⟩
def tRuntime : Runtime := ⟨tCall⟩

def tAgent : AgentState := AgentState.new Chain.new
def tAWc : ActionWrapper := ⟨.commitA tE1, 0⟩
def tAWg : ActionWrapper := ⟨.getEntryA Hash.emptyHash, 1⟩

/-! ## Claim theorems -/

/-- C1, counterexample: an invalid Pair whose header link also fails to match
the chain's top is rejected by `commit_pair` with the invalid-pair error, not
the link-mismatch error, so the claim as stated (every link-mismatched Pair
yields a link-mismatch error) fails at this input. -/
theorem c1_counterexample :
    tBadPair.header.link ≠ Chain.new.top.map Pair.key ∧
      Chain.new.commit_pair tBadPair = (Chain.new, .error (.mk invalidPairMsg)) ∧
      HolochainError.mk invalidPairMsg
        ≠ HolochainError.mk
            (linkMismatchMsg (Chain.new.top.map Pair.key) tBadPair.header.link) := by
  refine ⟨by decide, by decide, by decide⟩

/-- C1, amended: for every chain and every valid Pair whose header link does
not equal the (optional) hash of the chain's current top pair's header,
`commit_pair` returns the descriptive link-mismatch error and leaves the
chain unchanged (same top, nothing written to the store). -/
theorem c1_commit_link_mismatch (c : Chain) (p : Pair)
    (hv : p.validate = true) (hl : c.top.map Pair.key ≠ p.header.link) :
    c.commit_pair p
      = (c, .error (.mk (linkMismatchMsg (c.top.map Pair.key) p.header.link))) := by
  have hne : (c.top.map Pair.key != p.header.link) = true := by
    simp [bne_iff_ne, hl]
  simp [Chain.commit_pair, hv, hne]

/-- C1, witness: committing a valid but stale-based pair on the empty chain
yields exactly the link-mismatch error and the untouched chain. -/
theorem c1_witness :
    Chain.new.commit_pair tStalePair
      = (Chain.new, .error (.mk (linkMismatchMsg none (some Hash.emptyHash)))) :=
  c1_commit_link_mismatch Chain.new tStalePair (by decide) (by decide)

/-- C2, counterexample: the serialized successful commit response carries the
hash of the pair's entry, not the hash of the pair's header, so the claim as
stated fails at this pair (whose header hash differs from its entry hash). -/
theorem c2_counterexample :
    ActionResponse.to_json (.commit (.ok tP1))
        ≠ "\x7b\"hash\":\"" ++ tP1.header.hashOf.render ++ "\"\x7d" ∧
      ActionResponse.to_json (.commit (.ok tP1))
        = "\x7b\"hash\":\"" ++ tP1.entry.key.render ++ "\"\x7d" := by
  refine ⟨by decide, by decide⟩

/-- C2, amended: serializing a successful commit response yields the hash
object built from the hash of the pair's entry (the entry hash), and a
failed commit yields the error object with the error's message. -/
theorem c2_commit_response_json (p : Pair) (m : String) :
    ActionResponse.to_json (.commit (.ok p))
        = "\x7b\"hash\":\"" ++ p.entry.key.render ++ "\"\x7d" ∧
      ActionResponse.to_json (.commit (.error (.mk m)))
        = "\x7b\"error\":\"" ++ m ++ "\"\x7d" :=
  ⟨rfl, rfl⟩

/-- C3, counterexample: a resolved call-map entry regresses to pending when
the same ZomeFnCall is reduced again: after resolving `tCall`, a repeated
`Call` action re-inserts `None`, so the claimed monotonicity (resolved never
regresses, even for a repeated Call with the same key) fails. -/
theorem c3_counterexample :
    tNucleus2.zome_call_result tCall = some (some (.ok "result")) ∧
      tNucleus3 = nucleusReduce tNucleus2 (.call tCall) ∧
      tNucleus3.zome_call_result tCall = some none := by
  refine ⟨by decide, rfl, by decide⟩

/-- C3, amended: per ZomeFnCall key the call map never regresses under any
reduced action other than a repeated `Call` with that same key: a resolved
entry stays resolved and a present entry stays present (a repeated
authorized Call, excluded here, resets the entry to pending). -/
theorem c3_call_map_no_regression (s : NucleusState) (a : NucleusAction) (k : ZomeFnCall)
    (hnc : ∀ z, a = NucleusAction.call z → z ≠ k) :
    ((∃ r, s.zome_call_result k = some (some r)) →
        ∃ r', (nucleusReduce s a).zome_call_result k = some (some r')) ∧
      (s.zome_call_result k ≠ none → (nucleusReduce s a).zome_call_result k ≠ none) := by
  cases a with
  | call z =>
    have hzk : z ≠ k := hnc z rfl
    obtain ⟨v, hv⟩ := reduce_call_state s z
    have heq : (nucleusReduce s (.call z)).zome_call_result k = s.zome_call_result k := by
      show (reduce_call s z).1.zome_call_result k = s.zome_call_result k
      rw [hv, zome_call_result_insert_ne s z v k hzk]
    rw [heq]
    exact ⟨fun h => h, fun h => h⟩
  | returnZomeFunctionResult z r =>
    by_cases hzk : z = k
    · subst hzk
      have hself := zome_call_result_insert_self s z (some r)
      have hred : nucleusReduce s (.returnZomeFunctionResult z r)
          = s.insertCall z (some r) := rfl
      rw [hred, hself]
      exact ⟨fun _ => ⟨r, rfl⟩, fun _ => by simp⟩
    · have heq := zome_call_result_insert_ne s z (some r) k hzk
      have hred : nucleusReduce s (.returnZomeFunctionResult z r)
          = s.insertCall z (some r) := rfl
      rw [hred, heq]
      exact ⟨fun h => h, fun h => h⟩
  | otherAction => exact ⟨fun h => h, fun h => h⟩

/-- C3, witness: the resolved entry for `tCall` survives an unrelated
action. -/
theorem c3_witness :
    ∃ r', (nucleusReduce tNucleus2 NucleusAction.otherAction).zome_call_result tCall
      = some (some r') :=
  (c3_call_map_no_regression tNucleus2 NucleusAction.otherAction tCall
      (by intro z hz; cases hz)).1
    ⟨.ok "result", by decide⟩

/-- C4: `reduce_call` marks a Public-membrane call pending and hands it to
the executor with the capability's code; an absent capability or zome
resolves the call immediately with the lookup error, and a non-Public
membrane resolves it immediately with the missing-capability-token error,
in both cases without invoking the executor. -/
theorem c4_reduce_call_capability_policy (s : NucleusState) (call : ZomeFnCall) :
    (∀ cap, s.get_capability call = .ok cap → cap.cap_type.membrane = Membrane.publicM →
        (reduce_call s call).1.zome_call_result call = some none ∧
          (reduce_call s call).2 = some (call, cap.code)) ∧
      (∀ e, s.get_capability call = .error e →
        (reduce_call s call).1.zome_call_result call = some (some (.error e)) ∧
          (reduce_call s call).2 = none) ∧
      (∀ cap, s.get_capability call = .ok cap → cap.cap_type.membrane ≠ Membrane.publicM →
        (reduce_call s call).1.zome_call_result call
            = some (some (.error .doesNotHaveCapabilityToken)) ∧
          (reduce_call s call).2 = none) := by
  refine ⟨?_, ?_, ?_⟩
  · intro cap hc hm
    have h1 : reduce_call s call = (s.insertCall call none, some (call, cap.code)) := by
      simp [reduce_call, hc, hm]
    rw [h1]
    exact ⟨zome_call_result_insert_self s call none, rfl⟩
  · intro e hc
    have h1 : reduce_call s call = (s.insertCall call (some (.error e)), none) := by
      simp [reduce_call, hc]
    rw [h1]
    exact ⟨zome_call_result_insert_self s call (some (.error e)), rfl⟩
  · intro cap hc hm
    have h1 : reduce_call s call
        = (s.insertCall call (some (.error .doesNotHaveCapabilityToken)), none) := by
      cases hmem : cap.cap_type.membrane with
      | publicM => exact absurd hmem hm
      | zomeM => simp [reduce_call, hc, hmem]
      | agentM => simp [reduce_call, hc, hmem]
      | apiKeyM => simp [reduce_call, hc, hmem]
    rw [h1]
    exact ⟨zome_call_result_insert_self s call _, rfl⟩

/-- C4, witness: the public test capability is marked pending and launched;
a call into a missing zome resolves to the zome-not-found error without a
launch. -/
theorem c4_witness :
    ((reduce_call tNucleus tCall).1.zome_call_result tCall = some none ∧
        (reduce_call tNucleus tCall).2 = some (tCall, tCap.code)) ∧
      ((reduce_call tNucleus tCallNoZome).1.zome_call_result tCallNoZome
          = some (some (.error (.zomeNotFound "Zome 'bad_zome' not found"))) ∧
        (reduce_call tNucleus tCallNoZome).2 = none) := by
  constructor
  · exact (c4_reduce_call_capability_policy tNucleus tCall).1 tCap (by decide) rfl
  · exact (c4_reduce_call_capability_policy tNucleus tCallNoZome).2.1
      (.zomeNotFound "Zome 'bad_zome' not found") (by decide)

/-- C5: a decoded call agreeing on all four fields with the call currently
executing in the same runtime context is rejected by `invoke_call` with the
recursive-call code: no `Call` action is dispatched and no observer is
registered. -/
theorem c5_invoke_call_recursion_guard (rt : Runtime) (args : ZomeCallArgs)
    (h1 : args.zome_name = rt.zome_call.zome_name)
    (h2 : args.cap_name = rt.zome_call.cap_name)
    (h3 : args.fn_name = rt.zome_call.fn_name)
    (h4 : args.fn_args = rt.zome_call.fn_args) :
    invoke_call rt (.ok args) = .immediate .errorRecursiveCall ∧
      ∀ z, invoke_call rt (.ok args) ≠ .dispatched z := by
  have hsame : (ZomeFnCall.from_args args).same_as rt.zome_call = true := by
    simp [ZomeFnCall.from_args, ZomeFnCall.same_as, h1, h2, h3, h4]
  have heq : invoke_call rt (.ok args) = .immediate .errorRecursiveCall := by
    simp [invoke_call, hsame]
  refine ⟨heq, fun z hz => ?_⟩
  rw [heq] at hz
  cases hz

/-- C5, witness: invoking the currently executing test call again is
rejected with the recursive-call code. -/
theorem c5_witness :
    invoke_call tRuntime (.ok tArgs) = .immediate .errorRecursiveCall :=
  (c5_invoke_call_recursion_guard tRuntime tArgs rfl rfl rfl rfl).1

/-- C6: serializing a chain with a commit history to its canonical JSON
sequence and reconstructing with `from_json` over a fresh empty store yields
a chain equal to the original (both validate and share the same top pair). -/
theorem c6_json_round_trip (c : Chain) (ps : List Pair) (h : ChainHistory c ps) :
    ∃ c', Chain.fromJsonSeq c.toJsonSeq = some c' ∧ chainEq c' c = true := by
  obtain ⟨_, _, htop, _, _, hpairs, hlinks⟩ := chain_history_inv h
  have hjson : c.toJsonSeq = ps.reverse := hpairs
  obtain ⟨c', hfold, hhist⟩ :=
    @replay_ok ps none Chain.new [] hlinks ChainHistory.nil rfl
  have hhist' : ChainHistory c' ps := by simpa using hhist
  refine ⟨c', ?_, ?_⟩
  · unfold Chain.fromJsonSeq
    rw [hjson, List.reverse_reverse]
    exact hfold
  · obtain ⟨_, _, htop', _, _, _, _⟩ := chain_history_inv hhist'
    have hv1 := chain_history_validate hhist'
    have hv2 := chain_history_validate h
    simp [chainEq, hv1, hv2, htop, htop']

/-- C6, witness: the three-commit test chain round-trips through the JSON
sequence to an equal chain. -/
theorem c6_witness :
    ∃ c', Chain.fromJsonSeq tC3.toJsonSeq = some c' ∧ chainEq c' tC3 = true :=
  c6_json_round_trip tC3 [tP1, tP2, tP3] tHist3

/-- C7: `entry(hash)` on a chain with a commit history returns the entry of
the most recent (topmost) committed Pair whose entry hash matches, and
`none` when no committed Pair matches. -/
theorem c7_entry_most_recent (c : Chain) (ps : List Pair) (h : ChainHistory c ps)
    (k : Hash) :
    c.entry k = (ps.reverse.find? (fun p => p.entry.hashOf == k)).map (fun p => p.entry) ∧
      ((∀ p ∈ ps, p.entry.hashOf ≠ k) → c.entry k = none) := by
  obtain ⟨_, _, _, _, _, hpairs, _⟩ := chain_history_inv h
  have he : c.entry k
      = (ps.reverse.find? (fun p => p.entry.hashOf == k)).map (fun p => p.entry) := by
    unfold Chain.entry Chain.findPairByEntryHash
    rw [show c.pairs = ps.reverse from hpairs]
  refine ⟨he, fun hnone => ?_⟩
  rw [he]
  have hfind : ps.reverse.find? (fun p => p.entry.hashOf == k) = none := by
    rw [List.find?_eq_none]
    intro p hp
    simp [hnone p (List.mem_reverse.mp hp)]
  rw [hfind]
  rfl

/-- C7, witness: on the test chain (entries A, B, A) the lookup for entry
A's hash returns the third (most recent) Pair's entry even though the first
Pair shares the same entry hash, and the empty-string hash finds nothing. -/
theorem c7_witness :
    tC3.entry tE1.key = some tP3.entry ∧ tC3.entry Hash.emptyHash = none := by
  constructor
  · rw [(c7_entry_most_recent tC3 [tP1, tP2, tP3] tHist3 tE1.key).1]
    decide
  · exact (c7_entry_most_recent tC3 [tP1, tP2, tP3] tHist3 Hash.emptyHash).2 (by decide)

/-- C8: both agent reducers store a result keyed by the action wrapper for
every matching action — the full commit result (success or typed error) and
the full lookup result (found pair or `None`) — as total functions, so a
domain-level failure is recorded as a value rather than raised. -/
theorem c8_agent_reducers_store_results (s : AgentState) (aw : ActionWrapper) :
    (∀ e, aw.action = Action.commitA e →
        (reduce_commit s aw).actionResult aw
          = some (.commit (s.chain.commit_entry e).2)) ∧
      (∀ k, aw.action = Action.getEntryA k →
        (reduce_get s aw).actionResult aw
          = some (.getEntry (s.chain.findPairByEntryHash k))) := by
  constructor
  · intro e he
    have h1 : reduce_commit s aw
        = { s with chain := (s.chain.commit_entry e).1,
                   actions := (aw, .commit (s.chain.commit_entry e).2) :: s.actions } := by
      simp [reduce_commit, he]
    rw [h1]
    exact actionResult_head _ aw _ s.actions rfl
  · intro k hk
    have h1 : reduce_get s aw
        = { s with
              actions := (aw, .getEntry (s.chain.findPairByEntryHash k)) :: s.actions } := by
      simp [reduce_get, hk]
    rw [h1]
    exact actionResult_head _ aw _ s.actions rfl

/-- C8, witness: a commit on the empty chain stores its (successful) result,
and a lookup of a missing key stores `GetEntry None` instead of failing. -/
theorem c8_witness :
    (reduce_commit tAgent tAWc).actionResult tAWc
        = some (.commit (Chain.new.commit_entry tE1).2) ∧
      (reduce_get tAgent tAWg).actionResult tAWg = some (.getEntry none) := by
  constructor
  · exact (c8_agent_reducers_store_results tAgent tAWc).1 tE1 rfl
  · have h := (c8_agent_reducers_store_results tAgent tAWg).2 Hash.emptyHash rfl
    rw [h]
    decide

/-- C9: for every action the agent slice maps to no reducer (anything other
than Commit and GetEntry), `resolve_reducer` yields none and `reduce`
returns the very snapshot it was given, unchanged. -/
theorem c9_unmatched_action_same_snapshot (s : AgentState) (aw : ActionWrapper)
    (hc : ∀ e, aw.action ≠ Action.commitA e)
    (hg : ∀ k, aw.action ≠ Action.getEntryA k) :
    resolve_reducer aw = none ∧ agentReduce s aw = s := by
  have hr : resolve_reducer aw = none := by
    cases ha : aw.action with
    | commitA e => exact absurd ha (hc e)
    | getEntryA k => exact absurd ha (hg k)
    | callA z => simp [resolve_reducer, ha]
    | returnZomeFunctionResultA z r => simp [resolve_reducer, ha]
  refine ⟨hr, ?_⟩
  simp [agentReduce, hr]

/-- C9, witness: a Call action leaves the agent state exactly as it was. -/
theorem c9_witness :
    resolve_reducer ⟨Action.callA tCall, 0⟩ = none ∧
      agentReduce tAgent ⟨Action.callA tCall, 0⟩ = tAgent :=
  c9_unmatched_action_same_snapshot tAgent ⟨Action.callA tCall, 0⟩
    (fun e h => by cases h) (fun k h => by cases h)

/-- C10: a well-formed chain containing a Pair that fails validation is not
equal to itself under the chain equality, and chain equality holds exactly
when both chains validate and their top pairs are equal. -/
theorem c10_invalid_chain_not_self_equal (c d : Chain) :
    (c.wf = true → (∃ p, p ∈ c.pairs ∧ p.validate = false) → chainEq c c = false) ∧
      (chainEq c d = true ↔ (c.validate = true ∧ d.validate = true ∧ c.top = d.top)) := by
  constructor
  · rintro _ ⟨p, hp, hpv⟩
    have hval : c.validate = false := by
      unfold Chain.validate
      exact List.all_eq_false.mpr ⟨p, hp, by simp [hpv]⟩
    simp [chainEq, hval]
  · simp [chainEq, Bool.and_eq_true, beq_iff_eq, and_assoc]

/-- C10, witness: the hand-built chain holding one invalid pair compares
unequal to itself. -/
theorem c10_witness : chainEq tBadChain tBadChain = false :=
  (c10_invalid_chain_not_self_equal tBadChain tBadChain).1 (by decide)
    ⟨tBadPairG, by decide, by decide⟩

end Holochain
